import Mathlib

/-!
# Verification of the drive mirroring utilities

A shallow embedding of the two command-line scripts
`google_drive_uploader.py` and `google_drive_downloader.py`.

Strings are modelled as `List Char` (the character sequence of a Python
`str`).  The remote store is modelled as the list of remote nodes created
so far, together with a call counter; every remote call (folder creation
or file upload) is numbered in the order it is issued and an oracle
`ok : Nat → Bool` decides whether that call succeeds.  A successful call
creates exactly one remote node whose opaque id is the call number.
-/

namespace Drive

/-- Python `str.rstrip('/')`: remove all trailing `'/'` characters
(`local_path.rstrip('/')` in `upload_folder`, line 159). -/
def rstripSlashes (s : List Char) : List Char :=
  (s.reverse.dropWhile (fun c => c = '/')).reverse

/-- Python (posix) `os.path.basename`: everything after the last `'/'`
(the whole string when no `'/'` occurs; empty when the string ends in `'/'`). -/
def basenameChars (s : List Char) : List Char :=
  (s.reverse.takeWhile (fun c => c ≠ '/')).reverse

/-- `os.path.basename(local_path.rstrip('/'))` — the name given to the
top-level created folder (`upload_folder`, line 159). -/
def folderNameOf (s : List Char) : List Char :=
  basenameChars (rstripSlashes s)

/-- A local directory tree (the part of the filesystem `os.walk` sees):
a directory has a name, a list of plain-file names and a list of
subdirectories.  Entry names are single path components (no `'/'`). -/
inductive Dir where
  | mk (name : List Char) (files : List (List Char)) (subdirs : List Dir)

def Dir.name : Dir → List Char
  | .mk n _ _ => n

def Dir.files : Dir → List (List Char)
  | .mk _ fs _ => fs

def Dir.subdirs : Dir → List Dir
  | .mk _ _ ds => ds

mutual

/-- `os.walk(local_path)` in top-down order: the directory itself first
(relative path `[]`), then the walk of each subdirectory in listed order.
Each yielded entry is the directory's path relative to the walk root
(as a list of components) together with the directory. -/
def walk : Dir → List (List (List Char) × Dir)
  | .mk n fs subs => ([], .mk n fs subs) :: walkList subs

/-- The concatenated walks of a list of sibling subdirectories, each with
its own name prefixed onto the relative paths. -/
def walkList : List Dir → List (List (List Char) × Dir)
  | [] => []
  | d :: ds => (walk d).map (fun pe => (d.name :: pe.1, pe.2)) ++ walkList ds

end

mutual

/-- Number of directories in a tree, the root included. -/
def countDirs : Dir → Nat
  | .mk _ _ subs => 1 + countDirsList subs

def countDirsList : List Dir → Nat
  | [] => 0
  | d :: ds => countDirs d + countDirsList ds

end

mutual

/-- Number of plain files in a tree. -/
def countFiles : Dir → Nat
  | .mk _ fs subs => fs.length + countFilesList subs

def countFilesList : List Dir → Nat
  | [] => 0
  | d :: ds => countFiles d + countFilesList ds

end

/-- Whether a remote node was created by the folder-creation call or by a
file upload. -/
inductive NodeKind where
  | folder
  | file
deriving DecidableEq, Repr

/-- A Remote Node: id assigned by the store at creation (modelled as the
index of the remote call that created it), display name, kind, optional
parent id, and mime type sent with the creation request. -/
structure Node where
  id : Nat
  name : List Char
  kind : NodeKind
  parent : Option Nat
  mime : List Char
deriving DecidableEq, Repr

/-- mime type `'application/vnd.google-apps.folder'` sent by `create_folder`. -/
def folderMime : List Char := "application/vnd.google-apps.folder".toList

/-- The generic binary fallback `'application/octet-stream'` (`upload_file`,
line 107). -/
def octetStream : List Char := "application/octet-stream".toList

/-- `mimetypes.guess_type(file_path)` with the `None → octet-stream`
fallback of `upload_file` (lines 104–107).  `guess` is the external
`mimetypes` collaborator, an abstract function of the full path (as
`guess_type` consumes the path itself, resolving the extension and
encoding suffixes internally); the repository code contributes only the
fallback on `None`. -/
def mimeOf (guess : List Char → Option (List Char)) (path : List Char) : List Char :=
  match guess path with
  | some m => m
  | none => octetStream

/-- The remote-store state threaded through `upload_folder`: the number of
remote calls issued so far, the nodes created so far (in creation order),
and the Python variable `current_folder_id`. -/
structure St where
  callIdx : Nat
  nodes : List Node
  current : Nat
deriving DecidableEq, Repr

/-- `create_folder(service, folder_name, parent_id)`: one remote call;
on success returns the new folder's id and records the node, on failure
returns `none` (the Python function returns `None`) and creates nothing. -/
def create_folder (ok : Nat → Bool) (st : St) (nm : List Char)
    (parentId : Option Nat) : Option Nat × St :=
  if ok st.callIdx then
    (some st.callIdx,
      ⟨st.callIdx + 1,
       st.nodes ++ [⟨st.callIdx, nm, .folder, parentId, folderMime⟩],
       st.current⟩)
  else (none, st)

/-- `upload_file(service, file_path, parent_id)`: one remote call; on
success records a file node named `os.path.basename(file_path)` with mime
type from `mimetypes.guess_type` (octet-stream fallback) and returns
`True`; on failure returns `False` and creates nothing. -/
def upload_file (guess : List Char → Option (List Char)) (ok : Nat → Bool)
    (st : St) (path : List Char) (parentId : Option Nat) : Bool × St :=
  if ok st.callIdx then
    (true,
      ⟨st.callIdx + 1,
       st.nodes ++ [⟨st.callIdx, basenameChars path, .file, parentId, mimeOf guess path⟩],
       st.current⟩)
  else (false, st)

/-- The inner `for file_name in files` loop of `upload_folder`
(lines 186–189): upload each file under `current_folder_id`, aborting on
the first failure.  (For walk entries the uploaded path is
`os.path.join(root, file_name)`, whose basename and extension are those of
`file_name` itself, so the entry name is passed directly.) -/
def uploadFiles (guess : List Char → Option (List Char)) (ok : Nat → Bool) :
    List (List Char) → St → Bool × St
  | [], st => (true, st)
  | f :: fs, st =>
    match upload_file guess ok st f (some st.current) with
    | (true, st') => uploadFiles guess ok fs st'
    | (false, st') => (false, st')

/-- The `for root, dirs, files in os.walk(local_path)` loop of
`upload_folder` (lines 169–189).  `root == local_path` is modelled as the
relative path being `[]` (subdirectory paths strictly extend
`local_path`).  Note that in the `preserve_structure` branch the parent
passed to `create_folder` is the *current* value of `current_folder_id`,
i.e. the folder of the directory visited in the previous iteration —
exactly as in the source. -/
def walkLoop (guess : List Char → Option (List Char)) (ok : Nat → Bool)
    (driveId : Nat) (preserve : Bool) :
    List (List (List Char) × Dir) → St → Bool × St
  | [], st => (true, st)
  | (path, d) :: rest, st =>
    if path = [] then
      match uploadFiles guess ok d.files { st with current := driveId } with
      | (true, st') => walkLoop guess ok driveId preserve rest st'
      | (false, st') => (false, st')
    else if preserve then
      match create_folder ok st d.name (some st.current) with
      | (some fid, st') =>
        match uploadFiles guess ok d.files { st' with current := fid } with
        | (true, st2) => walkLoop guess ok driveId preserve rest st2
        | (false, st2) => (false, st2)
      | (none, st') => (false, st')
    else
      match uploadFiles guess ok d.files { st with current := driveId } with
      | (true, st') => walkLoop guess ok driveId preserve rest st'
      | (false, st') => (false, st')

/-- `upload_folder(service, local_path, parent_id, preserve_structure)`
(lines 150–191).  `fsTree` is the filesystem's answer to
`os.path.isdir(local_path)`: `none` when `local_path` does not exist or
is not a directory (the function then returns `False` having created
nothing), otherwise the directory tree rooted there.  Returns the
success boolean together with the list of remote nodes created. -/
def upload_folder (guess : List Char → Option (List Char)) (ok : Nat → Bool)
    (localPath : List Char) (fsTree : Option Dir) (parentId : Option Nat)
    (preserve : Bool) : Bool × List Node :=
  match fsTree with
  | none => (false, [])
  | some t =>
    match create_folder ok ⟨0, [], 0⟩ (folderNameOf localPath) parentId with
    | (some driveId, st) =>
      let r := walkLoop guess ok driveId preserve (walk t) { st with current := driveId }
      (r.1, r.2.nodes)
    | (none, st) => (false, st.nodes)

/-- The oracle under which every remote call succeeds. -/
def allOk : Nat → Bool := fun _ => true

/-- The folder nodes among a list of remote nodes. -/
def foldersOf (ns : List Node) : List Node :=
  ns.filter (fun n => n.kind == NodeKind.folder)

/-- The file nodes among a list of remote nodes. -/
def filesOf (ns : List Node) : List Node :=
  ns.filter (fun n => n.kind == NodeKind.file)

/-- The nodes a fully successful run of the file loop creates, starting at
call index `i` with current folder `cur`: one file node per file, with
consecutive ids. -/
def filesDelta (guess : List Char → Option (List Char)) (i cur : Nat) :
    List (List Char) → List Node
  | [] => []
  | f :: fs =>
    ⟨i, basenameChars f, .file, some cur, mimeOf guess f⟩ ::
      filesDelta guess (i + 1) cur fs

/-- The nodes a fully successful run of the walk loop creates, starting at
call index `i` with current folder `cur`. -/
def loopDelta (guess : List Char → Option (List Char)) (driveId : Nat)
    (preserve : Bool) : List (List (List Char) × Dir) → Nat → Nat → List Node
  | [], _, _ => []
  | (path, d) :: rest, i, cur =>
    if path = [] then
      filesDelta guess i driveId d.files ++
        loopDelta guess driveId preserve rest (i + d.files.length) driveId
    else if preserve then
      ⟨i, d.name, .folder, some cur, folderMime⟩ ::
        (filesDelta guess (i + 1) i d.files ++
          loopDelta guess driveId preserve rest (i + 1 + d.files.length) i)
    else
      filesDelta guess i driveId d.files ++
        loopDelta guess driveId preserve rest (i + d.files.length) driveId

/-- The value of `current_folder_id` after a fully successful run of the
walk loop. -/
def loopCur (driveId : Nat) (preserve : Bool) :
    List (List (List Char) × Dir) → Nat → Nat → Nat
  | [], _, cur => cur
  | (path, d) :: rest, i, _ =>
    if path = [] then
      loopCur driveId preserve rest (i + d.files.length) driveId
    else if preserve then
      loopCur driveId preserve rest (i + 1 + d.files.length) i
    else
      loopCur driveId preserve rest (i + d.files.length) driveId

/-- The number of remote calls one walk entry issues on a fully successful
run: one folder creation for a non-root entry when structure is preserved,
plus one upload per file. -/
def entryCalls (preserve : Bool) (e : List (List Char) × Dir) : Nat :=
  (if e.1 = [] then 0 else if preserve then 1 else 0) + e.2.files.length

/-- Remote calls a fully successful walk loop issues over a list of entries. -/
def callsOf (preserve : Bool) (l : List (List (List Char) × Dir)) : Nat :=
  (l.map (entryCalls preserve)).sum

/-- Total remote calls of a fully successful `upload_folder` run over tree
`t`: the top-level folder creation plus the walk loop's calls. -/
def numCalls (preserve : Bool) (t : Dir) : Nat :=
  1 + callsOf preserve (walk t)

/-- A fragment of the external `mimetypes.guess_type` collaborator's
behaviour: Python's built-in table maps the extension `.bin` to
`application/octet-stream`, so `guess_type('x.bin')` returns that type. -/
def binTable : List Char → Option (List Char) :=
  fun p => if p = "x.bin".toList then some octetStream else none

/-- `list_drive_folders(service, max_results)` (lines 198–212): the remote
listing call either yields a page of `(id, name)` entries or fails;
on failure the exception is caught, printed, and the empty list returned. -/
def list_drive_folders (listRes : Option (List (Nat × List Char))) :
    List (Nat × List Char) :=
  match listRes with
  | none => []
  | some xs => xs

/-- The uploader CLI `main` (lines 273–313), from the point the arguments
are parsed: returns the process exit code together with the folder listing
printed (empty unless `--list`).  `authOk` is whether `get_service`
produced a service; `listFlag`/`folderArg`/`noStructure` are the parsed
arguments; `listRes`, `guess`, `ok`, `fsTree` describe the environment. -/
def uploader_main (authOk : Bool) (listFlag : Bool)
    (listRes : Option (List (Nat × List Char))) (folderArg : Option (List Char))
    (guess : List Char → Option (List Char)) (ok : Nat → Bool)
    (fsTree : Option Dir) (parentId : Option Nat) (noStructure : Bool) :
    Nat × List (Nat × List Char) :=
  if authOk = false then (1, [])
  else if listFlag then (0, list_drive_folders listRes)
  else
    match folderArg with
    | none => (1, [])
    | some p =>
      if (upload_folder guess ok p fsTree parentId (!noStructure)).1 then (0, [])
      else (1, [])

end Drive

namespace DriveDl

/-- The first occurrence of `sep` in `s`: `some (before, after)` splits `s`
as `before ++ sep ++ after` at the leftmost occurrence, `none` when `sep`
does not occur.  This is the semantic core of Python's `str.split`. -/
def splitFirst : List Char → List Char → Option (List Char × List Char)
  | [], sep => if sep.isPrefixOf ([] : List Char) then some ([], []) else none
  | c :: rest, sep =>
    if sep.isPrefixOf (c :: rest) then some ([], (c :: rest).drop sep.length)
    else
      match splitFirst rest sep with
      | some (a, b) => some (c :: a, b)
      | none => none

/-- Python's `sub in s` substring test. -/
def containsSub (s sub : List Char) : Bool := (splitFirst s sub).isSome

/-- The part of `s` before the first occurrence of `sub` (all of `s` when
`sub` does not occur): `s.split(sub)[0]`. -/
def takeBeforeSub (s sub : List Char) : List Char :=
  match splitFirst s sub with
  | some (a, _) => a
  | none => s

/-- The file-id extraction of the downloader's `main` (lines 189–195):
when the argument contains `drive.google.com` it is
`file_id.split("/d/")[1].split("/")[0]` — `none` models the `IndexError`
caught when `"/d/"` does not occur (element `[1]` of the split is the text
between the first and second occurrence of `"/d/"`, and element `[0]` of
the inner split is the text before the first `"/"`); otherwise the
argument is used unchanged. -/
def extractFileId (s : List Char) : Option (List Char) :=
  if containsSub s "drive.google.com".toList then
    match splitFirst s "/d/".toList with
    | some (_, rest) =>
      some (takeBeforeSub (takeBeforeSub rest "/d/".toList) "/".toList)
    | none => none
  else some s

/-- The `requests`-method branch of the downloader's `main`
(lines 187–198): extract the file id (exit code 1 when extraction fails),
then run the download (`dl` models `download_file_requests`) and exit 0 on
success, 1 on failure. -/
def downloader_main_requests (fileIdArg : List Char) (dl : List Char → Bool) : Nat :=
  match extractFileId fileIdArg with
  | none => 1
  | some fid => if dl fid then 0 else 1

end DriveDl

namespace Drive

/-! ## Basic lemmas about the file loop -/

theorem filesDelta_length (guess : List Char → Option (List Char))
    (fs : List (List Char)) : ∀ i cur, (filesDelta guess i cur fs).length = fs.length := by
  induction fs with
  | nil => intro i cur; rfl
  | cons f fs ih => intro i cur; simp [filesDelta, ih]

theorem uploadFiles_ok_range (guess : List Char → Option (List Char))
    (ok : Nat → Bool) (fs : List (List Char)) :
    ∀ st : St, (∀ j, st.callIdx ≤ j → j < st.callIdx + fs.length → ok j = true) →
    uploadFiles guess ok fs st =
      (true, ⟨st.callIdx + fs.length,
              st.nodes ++ filesDelta guess st.callIdx st.current fs,
              st.current⟩) := by
  induction fs with
  | nil =>
    intro st _
    simp [uploadFiles, filesDelta]
  | cons f fs ih =>
    intro st h
    have hok : ok st.callIdx = true :=
      h st.callIdx (Nat.le_refl _) (by simp only [List.length_cons]; omega)
    have step := ih ⟨st.callIdx + 1,
        st.nodes ++ [⟨st.callIdx, basenameChars f, .file, some st.current, mimeOf guess f⟩],
        st.current⟩ (by
      intro j h1 h2
      dsimp only at h1 h2
      exact h j (by omega) (by simp only [List.length_cons]; omega))
    simp only [uploadFiles, upload_file, hok, if_true] at step ⊢
    rw [step]
    simp [filesDelta, St.mk.injEq]
    omega

end Drive

namespace Drive

theorem walkLoop_ok_range (guess : List Char → Option (List Char))
    (ok : Nat → Bool) (driveId : Nat) (preserve : Bool)
    (l : List (List (List Char) × Dir)) :
    ∀ st : St, (∀ j, st.callIdx ≤ j → j < st.callIdx + callsOf preserve l → ok j = true) →
    walkLoop guess ok driveId preserve l st =
      (true, ⟨st.callIdx + callsOf preserve l,
              st.nodes ++ loopDelta guess driveId preserve l st.callIdx st.current,
              loopCur driveId preserve l st.callIdx st.current⟩) := by
  induction l with
  | nil =>
    intro st _
    simp [walkLoop, callsOf, loopDelta, loopCur]
  | cons e rest ih =>
    obtain ⟨path, d⟩ := e
    intro st h
    have hcalls : callsOf preserve ((path, d) :: rest) =
        entryCalls preserve (path, d) + callsOf preserve rest := by
      simp [callsOf]
    by_cases hp : path = []
    · subst hp
      have hec : entryCalls preserve ([], d) = d.files.length := by
        simp [entryCalls]
      have hfiles := uploadFiles_ok_range guess ok d.files
        { st with current := driveId } (by
          intro j h1 h2
          dsimp only at h1 h2
          exact h j h1 (by rw [hcalls, hec] at *; omega))
      have hrest := ih ⟨st.callIdx + d.files.length,
          st.nodes ++ filesDelta guess st.callIdx driveId d.files, driveId⟩ (by
        intro j h1 h2
        dsimp only at h1 h2
        exact h j (by omega) (by rw [hcalls, hec]; omega))
      simp only [walkLoop, if_pos rfl]
      rw [hfiles]
      simp only []
      rw [hrest]
      simp [loopDelta, loopCur, hcalls, hec, List.append_assoc, St.mk.injEq]
      omega
    · by_cases hpres : preserve = true
      · subst hpres
        have hec : entryCalls true (path, d) = 1 + d.files.length := by
          simp [entryCalls, hp]
        have hok : ok st.callIdx = true :=
          h st.callIdx (Nat.le_refl _) (by rw [hcalls, hec]; omega)
        have hfiles := uploadFiles_ok_range guess ok d.files
          ⟨st.callIdx + 1,
           st.nodes ++ [⟨st.callIdx, d.name, .folder, some st.current, folderMime⟩],
           st.callIdx⟩ (by
            intro j h1 h2
            dsimp only at h1 h2
            exact h j (by omega) (by rw [hcalls, hec]; omega))
        have hrest := ih ⟨st.callIdx + 1 + d.files.length,
            (st.nodes ++ [⟨st.callIdx, d.name, .folder, some st.current, folderMime⟩]) ++
              filesDelta guess (st.callIdx + 1) st.callIdx d.files, st.callIdx⟩ (by
          intro j h1 h2
          dsimp only at h1 h2
          exact h j (by omega) (by rw [hcalls, hec]; omega))
        simp only [walkLoop, if_neg hp, if_pos rfl, create_folder, hok, if_true]
        rw [hfiles]
        simp only []
        rw [hrest]
        simp [loopDelta, loopCur, hp, hcalls, hec, List.append_assoc, St.mk.injEq]
        omega
      · have hpf : preserve = false := by
          cases preserve
          · rfl
          · exact absurd rfl hpres
        subst hpf
        have hec : entryCalls false (path, d) = d.files.length := by
          simp [entryCalls, hp]
        have hfiles := uploadFiles_ok_range guess ok d.files
          { st with current := driveId } (by
            intro j h1 h2
            dsimp only at h1 h2
            exact h j h1 (by rw [hcalls, hec] at *; omega))
        have hrest := ih ⟨st.callIdx + d.files.length,
            st.nodes ++ filesDelta guess st.callIdx driveId d.files, driveId⟩ (by
          intro j h1 h2
          dsimp only at h1 h2
          exact h j (by omega) (by rw [hcalls, hec]; omega))
        simp only [walkLoop, if_neg hp, if_neg (by simp : ¬(false = true))]
        rw [hfiles]
        simp only []
        rw [hrest]
        simp [loopDelta, loopCur, hp, hcalls, hec, List.append_assoc, St.mk.injEq]
        omega

end Drive

namespace Drive

mutual

theorem walk_length : ∀ t : Dir, (walk t).length = countDirs t
  | .mk n fs subs => by
    simp [walk, countDirs, walkList_length subs, Nat.add_comm]

theorem walkList_length : ∀ ds : List Dir, (walkList ds).length = countDirsList ds
  | [] => by simp [walkList, countDirsList]
  | d :: ds => by
    simp [walkList, countDirsList, walk_length d, walkList_length ds]

end

mutual

theorem walk_files_sum : ∀ t : Dir,
    ((walk t).map (fun e => e.2.files.length)).sum = countFiles t
  | .mk n fs subs => by
    simp only [walk, List.map_cons, List.sum_cons, countFiles]
    rw [walkList_files_sum subs]
    simp [Dir.files]

theorem walkList_files_sum : ∀ ds : List Dir,
    ((walkList ds).map (fun e => e.2.files.length)).sum = countFilesList ds
  | [] => by simp [walkList, countFilesList]
  | d :: ds => by
    have h1 := walk_files_sum d
    have h2 := walkList_files_sum ds
    simp only [walkList, List.map_append, List.sum_append, List.map_map, countFilesList]
    rw [← h1, ← h2]
    congr 1

end

theorem walkList_path_ne_nil : ∀ ds : List Dir, ∀ e ∈ walkList ds, e.1 ≠ [] := by
  intro ds
  induction ds with
  | nil => intro e he; simp [walkList] at he
  | cons d ds ih =>
    intro e he
    simp only [walkList, List.mem_append, List.mem_map] at he
    rcases he with ⟨pe, _, rfl⟩ | he
    · simp
    · exact ih e he

end Drive

namespace Drive

theorem foldersOf_append (a b : List Node) :
    foldersOf (a ++ b) = foldersOf a ++ foldersOf b := by
  simp [foldersOf, List.filter_append]

theorem filesOf_append (a b : List Node) :
    filesOf (a ++ b) = filesOf a ++ filesOf b := by
  simp [filesOf, List.filter_append]

theorem foldersOf_cons_folder (n : Node) (l : List Node)
    (h : n.kind = NodeKind.folder) : foldersOf (n :: l) = n :: foldersOf l := by
  simp [foldersOf, List.filter_cons, h]

theorem foldersOf_cons_file (n : Node) (l : List Node)
    (h : n.kind = NodeKind.file) : foldersOf (n :: l) = foldersOf l := by
  simp [foldersOf, List.filter_cons, h]

theorem filesOf_cons_file (n : Node) (l : List Node)
    (h : n.kind = NodeKind.file) : filesOf (n :: l) = n :: filesOf l := by
  simp [filesOf, List.filter_cons, h]

theorem filesOf_cons_folder (n : Node) (l : List Node)
    (h : n.kind = NodeKind.folder) : filesOf (n :: l) = filesOf l := by
  simp [filesOf, List.filter_cons, h]

theorem loopDelta_root_cons (guess : List Char → Option (List Char))
    (driveId : Nat) (preserve : Bool) (d : Dir)
    (rest : List (List (List Char) × Dir)) (i cur : Nat) :
    loopDelta guess driveId preserve (([], d) :: rest) i cur =
      filesDelta guess i driveId d.files ++
        loopDelta guess driveId preserve rest (i + d.files.length) driveId := by
  simp [loopDelta]

theorem loopDelta_true_cons (guess : List Char → Option (List Char))
    (driveId : Nat) (path : List (List Char)) (d : Dir)
    (rest : List (List (List Char) × Dir)) (i cur : Nat) (hp : path ≠ []) :
    loopDelta guess driveId true ((path, d) :: rest) i cur =
      ⟨i, d.name, .folder, some cur, folderMime⟩ ::
        (filesDelta guess (i + 1) i d.files ++
          loopDelta guess driveId true rest (i + 1 + d.files.length) i) := by
  simp [loopDelta, hp]

theorem loopDelta_false_cons (guess : List Char → Option (List Char))
    (driveId : Nat) (path : List (List Char)) (d : Dir)
    (rest : List (List (List Char) × Dir)) (i cur : Nat) :
    loopDelta guess driveId false ((path, d) :: rest) i cur =
      filesDelta guess i driveId d.files ++
        loopDelta guess driveId false rest (i + d.files.length) driveId := by
  by_cases hp : path = [] <;> simp [loopDelta, hp]

theorem filesDelta_mem (guess : List Char → Option (List Char))
    (fs : List (List Char)) : ∀ i cur, ∀ n ∈ filesDelta guess i cur fs,
    n.kind = NodeKind.file ∧ n.parent = some cur := by
  induction fs with
  | nil => intro i cur n hn; simp [filesDelta] at hn
  | cons f fs ih =>
    intro i cur n hn
    simp only [filesDelta, List.mem_cons] at hn
    rcases hn with rfl | hn
    · exact ⟨rfl, rfl⟩
    · exact ih (i + 1) cur n hn

theorem foldersOf_filesDelta (guess : List Char → Option (List Char))
    (fs : List (List Char)) : ∀ i cur, foldersOf (filesDelta guess i cur fs) = [] := by
  induction fs with
  | nil => intro i cur; rfl
  | cons f fs ih =>
    intro i cur
    rw [filesDelta, foldersOf_cons_file _ _ rfl]
    exact ih (i + 1) cur

theorem filesOf_filesDelta (guess : List Char → Option (List Char))
    (fs : List (List Char)) : ∀ i cur,
    filesOf (filesDelta guess i cur fs) = filesDelta guess i cur fs := by
  induction fs with
  | nil => intro i cur; rfl
  | cons f fs ih =>
    intro i cur
    rw [filesDelta, filesOf_cons_file _ _ rfl, ih (i + 1) cur]

theorem foldersOf_loopDelta_length (guess : List Char → Option (List Char))
    (driveId : Nat) (l : List (List (List Char) × Dir))
    (hl : ∀ e ∈ l, e.1 ≠ []) : ∀ i cur,
    (foldersOf (loopDelta guess driveId true l i cur)).length = l.length := by
  induction l with
  | nil => intro i cur; rfl
  | cons e rest ih =>
    obtain ⟨path, d⟩ := e
    intro i cur
    have hp : path ≠ [] := hl (path, d) (List.mem_cons_self _ _)
    rw [loopDelta_true_cons guess driveId path d rest i cur hp,
      foldersOf_cons_folder _ _ rfl, foldersOf_append,
      foldersOf_filesDelta]
    simp only [List.length_cons, List.nil_append, List.length_cons]
    rw [ih (fun e he => hl e (List.mem_cons_of_mem _ he)) (i + 1 + d.files.length) i]

theorem foldersOf_loopDelta_false (guess : List Char → Option (List Char))
    (driveId : Nat) (l : List (List (List Char) × Dir)) : ∀ i cur,
    foldersOf (loopDelta guess driveId false l i cur) = [] := by
  induction l with
  | nil => intro i cur; rfl
  | cons e rest ih =>
    obtain ⟨path, d⟩ := e
    intro i cur
    rw [loopDelta_false_cons, foldersOf_append, foldersOf_filesDelta,
      ih (i + d.files.length) driveId]
    rfl

theorem filesOf_loopDelta_length (guess : List Char → Option (List Char))
    (driveId : Nat) (preserve : Bool) (l : List (List (List Char) × Dir)) :
    ∀ i cur, (filesOf (loopDelta guess driveId preserve l i cur)).length =
      (l.map (fun e => e.2.files.length)).sum := by
  induction l with
  | nil => intro i cur; rfl
  | cons e rest ih =>
    obtain ⟨path, d⟩ := e
    intro i cur
    simp only [List.map_cons, List.sum_cons]
    by_cases hp : path = []
    · subst hp
      rw [loopDelta_root_cons, filesOf_append, List.length_append,
        filesOf_filesDelta, filesDelta_length, ih (i + d.files.length) driveId]
    · by_cases hpres : preserve = true
      · subst hpres
        rw [loopDelta_true_cons guess driveId path d rest i cur hp,
          filesOf_cons_folder _ _ rfl, filesOf_append, List.length_append,
          filesOf_filesDelta, filesDelta_length,
          ih (i + 1 + d.files.length) i]
      · have hpf : preserve = false := by
          cases preserve
          · rfl
          · exact absurd rfl hpres
        subst hpf
        rw [loopDelta_false_cons, filesOf_append, List.length_append,
          filesOf_filesDelta, filesDelta_length, ih (i + d.files.length) driveId]

theorem loopDelta_false_mem (guess : List Char → Option (List Char))
    (driveId : Nat) (l : List (List (List Char) × Dir)) :
    ∀ i cur, ∀ n ∈ loopDelta guess driveId false l i cur,
    n.kind = NodeKind.file ∧ n.parent = some driveId := by
  induction l with
  | nil => intro i cur n hn; simp [loopDelta] at hn
  | cons e rest ih =>
    obtain ⟨path, d⟩ := e
    intro i cur n hn
    rw [loopDelta_false_cons] at hn
    rcases List.mem_append.mp hn with hn | hn
    · exact filesDelta_mem guess d.files i driveId n hn
    · exact ih (i + d.files.length) driveId n hn

end Drive

namespace Drive

theorem upload_folder_allOk (guess : List Char → Option (List Char))
    (p : List Char) (t : Dir) (pid : Option Nat) (preserve : Bool) :
    upload_folder guess allOk p (some t) pid preserve =
      (true, ⟨0, folderNameOf p, .folder, pid, folderMime⟩ ::
             loopDelta guess 0 preserve (walk t) 1 0) := by
  have hcf : create_folder allOk ⟨0, [], 0⟩ (folderNameOf p) pid =
      (some 0, ⟨1, [⟨0, folderNameOf p, .folder, pid, folderMime⟩], 0⟩) := rfl
  simp only [upload_folder, hcf]
  rw [walkLoop_ok_range guess allOk 0 preserve (walk t)
    ⟨1, [⟨0, folderNameOf p, .folder, pid, folderMime⟩], 0⟩ (by intro j _ _; rfl)]
  rfl

end Drive

namespace Drive

/-- C2: for every local directory tree, running `upload_folder` with
`preserve_structure=true` and every remote call succeeding returns success
and creates exactly one remote folder node per local directory (the root
included) and exactly one remote file node per local file. -/
theorem upload_folder_preserve_counts (guess : List Char → Option (List Char))
    (p : List Char) (t : Dir) (pid : Option Nat) :
    (upload_folder guess allOk p (some t) pid true).1 = true ∧
    (foldersOf (upload_folder guess allOk p (some t) pid true).2).length = countDirs t ∧
    (filesOf (upload_folder guess allOk p (some t) pid true).2).length = countFiles t := by
  rw [upload_folder_allOk]
  refine ⟨rfl, ?_, ?_⟩
  · cases t with
    | mk n fs subs =>
      rw [walk, foldersOf_cons_folder _ _ rfl, List.length_cons,
        loopDelta_root_cons, foldersOf_append, foldersOf_filesDelta,
        List.nil_append,
        foldersOf_loopDelta_length guess 0 (walkList subs)
          (walkList_path_ne_nil subs) _ _,
        walkList_length, countDirs]
      omega
  · rw [filesOf_cons_folder _ _ rfl,
      filesOf_loopDelta_length guess 0 true (walk t) 1 0,
      walk_files_sum]

/-- C3: for every local directory tree, running `upload_folder` with
`preserve_structure=false` and every remote call succeeding returns
success, creates exactly one remote folder (the top-level created folder,
id 0), and parents every uploaded file node, at any nesting depth,
directly under that single top-level folder. -/
theorem upload_folder_flat (guess : List Char → Option (List Char))
    (p : List Char) (t : Dir) (pid : Option Nat) :
    (upload_folder guess allOk p (some t) pid false).1 = true ∧
    foldersOf (upload_folder guess allOk p (some t) pid false).2 =
      [⟨0, folderNameOf p, .folder, pid, folderMime⟩] ∧
    (∀ n ∈ (upload_folder guess allOk p (some t) pid false).2,
      n.kind = NodeKind.file → n.parent = some 0) ∧
    (filesOf (upload_folder guess allOk p (some t) pid false).2).length = countFiles t := by
  rw [upload_folder_allOk]
  refine ⟨rfl, ?_, ?_, ?_⟩
  · rw [foldersOf_cons_folder _ _ rfl, foldersOf_loopDelta_false]
  · intro n hn hkind
    rcases List.mem_cons.mp hn with rfl | hn
    · exact absurd hkind (by simp)
    · exact (loopDelta_false_mem guess 0 (walk t) 1 0 n hn).2
  · rw [filesOf_cons_folder _ _ rfl,
      filesOf_loopDelta_length guess 0 false (walk t) 1 0,
      walk_files_sum]

/-- C5: running `upload_folder` on an empty local directory with the
folder-creation call succeeding creates exactly one remote folder node and
zero remote file nodes, and returns success. -/
theorem upload_folder_empty_dir (guess : List Char → Option (List Char))
    (ok : Nat → Bool) (n p : List Char) (pid : Option Nat) (preserve : Bool)
    (h : ok 0 = true) :
    upload_folder guess ok p (some (Dir.mk n [] [])) pid preserve =
      (true, [⟨0, folderNameOf p, .folder, pid, folderMime⟩]) := by
  simp [upload_folder, create_folder, h, walk, walkList, walkLoop, uploadFiles, Dir.files]

/-- Witness for C5 at a concrete input. -/
theorem upload_folder_empty_dir_witness :
    upload_folder (fun _ => none) allOk "d".toList
        (some (Dir.mk "d".toList [] [])) none true =
      (true, [⟨0, folderNameOf "d".toList, .folder, none, folderMime⟩]) :=
  upload_folder_empty_dir (fun _ => none) allOk "d".toList "d".toList none true rfl

/-- C6: when `local_path` does not exist or is not a directory
(`os.path.isdir` fails, modelled as `fsTree = none`), `upload_folder`
reports failure via its boolean result and creates no remote node of any
kind. -/
theorem upload_folder_not_a_directory (guess : List Char → Option (List Char))
    (ok : Nat → Bool) (p : List Char) (pid : Option Nat) (preserve : Bool) :
    upload_folder guess ok p none pid preserve = (false, []) := rfl

/-- C1 (failing input): on the tree `r/` containing the two sibling
subdirectories `a/` and `b/`, with every remote call succeeding and
`preserve_structure=true`, the folder created for `b` is parented under
the folder created for `a` (id 1) instead of under the folder created for
its immediate containing directory `r` (id 0): the spec's parenting
invariant is violated by the code, which passes the stale
`current_folder_id` of the previously visited directory as the parent. -/
theorem upload_folder_misparents_siblings :
    upload_folder (fun _ => none) allOk "r".toList
        (some (Dir.mk "r".toList []
          [Dir.mk "a".toList [] [], Dir.mk "b".toList [] []])) none true =
      (true, [⟨0, "r".toList, .folder, none, folderMime⟩,
              ⟨1, "a".toList, .folder, some 0, folderMime⟩,
              ⟨2, "b".toList, .folder, some 1, folderMime⟩]) := by
  decide

end Drive

namespace Drive

theorem uploadFiles_abort (guess : List Char → Option (List Char))
    (ok : Nat → Bool) (k : Nat) (hfirst : ∀ j, j < k → ok j = true)
    (hk : ok k = false) (fs : List (List Char)) :
    ∀ st : St, st.callIdx ≤ k → k < st.callIdx + fs.length →
    uploadFiles guess ok fs st =
      (false, ⟨k, st.nodes ++ (filesDelta guess st.callIdx st.current fs).take (k - st.callIdx),
              st.current⟩) := by
  induction fs with
  | nil =>
    intro st h1 h2
    simp only [List.length_nil] at h2
    omega
  | cons f fs ih =>
    intro st h1 h2
    by_cases hc : st.callIdx = k
    · have : uploadFiles guess ok (f :: fs) st = (false, st) := by
        simp [uploadFiles, upload_file, hc, hk]
      rw [this]
      subst hc
      simp only [Nat.sub_self, List.take_zero, List.append_nil]
    · have hlt : st.callIdx < k := by omega
      have hok : ok st.callIdx = true := hfirst st.callIdx hlt
      have step := ih ⟨st.callIdx + 1,
          st.nodes ++ [⟨st.callIdx, basenameChars f, .file, some st.current, mimeOf guess f⟩],
          st.current⟩ (by dsimp only; omega)
        (by dsimp only; simp only [List.length_cons] at h2; omega)
      simp only [uploadFiles, upload_file, hok, if_true] at step ⊢
      rw [step]
      have htake : (filesDelta guess st.callIdx st.current (f :: fs)).take (k - st.callIdx) =
          ⟨st.callIdx, basenameChars f, .file, some st.current, mimeOf guess f⟩ ::
            (filesDelta guess (st.callIdx + 1) st.current fs).take (k - (st.callIdx + 1)) := by
        have hsub : k - st.callIdx = (k - (st.callIdx + 1)) + 1 := by omega
        rw [filesDelta, hsub, List.take_succ_cons]
      rw [htake]
      simp [List.append_assoc]

end Drive

namespace Drive


theorem walkLoop_abort (guess : List Char → Option (List Char))
    (ok : Nat → Bool) (driveId : Nat) (preserve : Bool) (k : Nat)
    (hfirst : ∀ j, j < k → ok j = true) (hk : ok k = false)
    (l : List (List (List Char) × Dir)) :
    ∀ st : St, st.callIdx ≤ k → k < st.callIdx + callsOf preserve l →
    ∃ stf : St, walkLoop guess ok driveId preserve l st = (false, stf) ∧
      stf.nodes = st.nodes ++
        (loopDelta guess driveId preserve l st.callIdx st.current).take (k - st.callIdx) := by
  induction l with
  | nil =>
    intro st h1 h2
    simp [callsOf] at h2
    omega
  | cons e rest ih =>
    obtain ⟨path, d⟩ := e
    intro st h1 h2
    have hcalls : callsOf preserve ((path, d) :: rest) =
        entryCalls preserve (path, d) + callsOf preserve rest := by
      simp [callsOf]
    by_cases hp : path = []
    · subst hp
      have hec : entryCalls preserve ([], d) = d.files.length := by
        simp [entryCalls]
      by_cases hkf : k < st.callIdx + d.files.length
      · have habort := uploadFiles_abort guess ok k hfirst hk d.files
          { st with current := driveId } (by dsimp only; omega) (by dsimp only; omega)
        refine ⟨⟨k, st.nodes ++
            (filesDelta guess st.callIdx driveId d.files).take (k - st.callIdx),
            driveId⟩, ?_, ?_⟩
        · simp only [walkLoop, if_pos rfl]
          rw [habort]
          simp
        · dsimp only
          rw [loopDelta_root_cons,
            List.take_append_of_le_length (by rw [filesDelta_length]; omega)]
      · have hfiles := uploadFiles_ok_range guess ok d.files
          { st with current := driveId } (by
            intro j hj1 hj2
            dsimp only at hj1 hj2
            exact hfirst j (by omega))
        obtain ⟨stf, hrun, hnodes⟩ := ih ⟨st.callIdx + d.files.length,
            st.nodes ++ filesDelta guess st.callIdx driveId d.files, driveId⟩
          (by dsimp only; omega)
          (by dsimp only; rw [hcalls, hec] at h2; omega)
        refine ⟨stf, ?_, ?_⟩
        · simp only [walkLoop, if_pos rfl]
          rw [hfiles]
          simpa using hrun
        · rw [hnodes]
          dsimp only
          have htk : (filesDelta guess st.callIdx driveId d.files).take (k - st.callIdx) =
              filesDelta guess st.callIdx driveId d.files :=
            List.take_of_length_le (by rw [filesDelta_length]; omega)
          rw [loopDelta_root_cons, List.take_append_eq_append_take, htk, filesDelta_length]
          have harith : k - (st.callIdx + d.files.length) =
              k - st.callIdx - d.files.length := by omega
          rw [harith, List.append_assoc]
    · by_cases hpres : preserve = true
      · subst hpres
        have hec : entryCalls true (path, d) = 1 + d.files.length := by
          simp [entryCalls, hp]
        by_cases hc0 : st.callIdx = k
        · have hcf : create_folder ok st d.name (some st.current) = (none, st) := by
            simp [create_folder, hc0, hk]
          refine ⟨st, ?_, ?_⟩
          · simp only [walkLoop, if_neg hp, if_pos rfl, hcf]
            simp
          · rw [hc0, Nat.sub_self, List.take_zero, List.append_nil]
        · have hok : ok st.callIdx = true := hfirst st.callIdx (by omega)
          have hcf : create_folder ok st d.name (some st.current) =
              (some st.callIdx, ⟨st.callIdx + 1,
                st.nodes ++ [⟨st.callIdx, d.name, .folder, some st.current, folderMime⟩],
                st.current⟩) := by
            simp [create_folder, hok]
          by_cases hkf : k < st.callIdx + 1 + d.files.length
          · have habort := uploadFiles_abort guess ok k hfirst hk d.files
              ⟨st.callIdx + 1,
               st.nodes ++ [⟨st.callIdx, d.name, .folder, some st.current, folderMime⟩],
               st.callIdx⟩ (by dsimp only; omega) (by dsimp only; omega)
            refine ⟨⟨k, (st.nodes ++
                [⟨st.callIdx, d.name, .folder, some st.current, folderMime⟩]) ++
                (filesDelta guess (st.callIdx + 1) st.callIdx d.files).take
                  (k - (st.callIdx + 1)), st.callIdx⟩, ?_, ?_⟩
            · simp only [walkLoop, if_neg hp, if_pos rfl, hcf]
              rw [habort]
              simp
            · dsimp only
              rw [loopDelta_true_cons guess driveId path d rest st.callIdx st.current hp]
              have hsub : k - st.callIdx = (k - (st.callIdx + 1)) + 1 := by omega
              rw [hsub, List.take_succ_cons,
                List.take_append_of_le_length (by rw [filesDelta_length]; omega)]
              simp [List.append_assoc]
          · have hfiles := uploadFiles_ok_range guess ok d.files
              ⟨st.callIdx + 1,
               st.nodes ++ [⟨st.callIdx, d.name, .folder, some st.current, folderMime⟩],
               st.callIdx⟩ (by
                intro j hj1 hj2
                dsimp only at hj1 hj2
                exact hfirst j (by omega))
            obtain ⟨stf, hrun, hnodes⟩ := ih ⟨st.callIdx + 1 + d.files.length,
                (st.nodes ++
                  [⟨st.callIdx, d.name, .folder, some st.current, folderMime⟩]) ++
                  filesDelta guess (st.callIdx + 1) st.callIdx d.files, st.callIdx⟩
              (by dsimp only; omega)
              (by dsimp only; rw [hcalls, hec] at h2; omega)
            refine ⟨stf, ?_, ?_⟩
            · simp only [walkLoop, if_neg hp, if_pos rfl, hcf]
              rw [hfiles]
              simpa using hrun
            · rw [hnodes]
              dsimp only
              rw [loopDelta_true_cons guess driveId path d rest st.callIdx st.current hp]
              have hsub : k - st.callIdx = (k - (st.callIdx + 1)) + 1 := by omega
              have htk : (filesDelta guess (st.callIdx + 1) st.callIdx d.files).take
                  (k - (st.callIdx + 1)) =
                  filesDelta guess (st.callIdx + 1) st.callIdx d.files :=
                List.take_of_length_le (by rw [filesDelta_length]; omega)
              rw [hsub, List.take_succ_cons, List.take_append_eq_append_take, htk,
                filesDelta_length]
              have harith : k - (st.callIdx + 1 + d.files.length) =
                  k - (st.callIdx + 1) - d.files.length := by omega
              rw [harith]
              simp [List.append_assoc]
      · have hpf : preserve = false := by
          cases preserve
          · rfl
          · exact absurd rfl hpres
        subst hpf
        have hec : entryCalls false (path, d) = d.files.length := by
          simp [entryCalls, hp]
        by_cases hkf : k < st.callIdx + d.files.length
        · have habort := uploadFiles_abort guess ok k hfirst hk d.files
            { st with current := driveId } (by dsimp only; omega) (by dsimp only; omega)
          refine ⟨⟨k, st.nodes ++
              (filesDelta guess st.callIdx driveId d.files).take (k - st.callIdx),
              driveId⟩, ?_, ?_⟩
          · simp only [walkLoop, if_neg hp, Bool.false_eq_true, if_false]
            rw [habort]
          · dsimp only
            rw [loopDelta_false_cons,
              List.take_append_of_le_length (by rw [filesDelta_length]; omega)]
        · have hfiles := uploadFiles_ok_range guess ok d.files
            { st with current := driveId } (by
              intro j hj1 hj2
              dsimp only at hj1 hj2
              exact hfirst j (by omega))
          obtain ⟨stf, hrun, hnodes⟩ := ih ⟨st.callIdx + d.files.length,
              st.nodes ++ filesDelta guess st.callIdx driveId d.files, driveId⟩
            (by dsimp only; omega)
            (by dsimp only; rw [hcalls, hec] at h2; omega)
          refine ⟨stf, ?_, ?_⟩
          · simp only [walkLoop, if_neg hp, Bool.false_eq_true, if_false]
            rw [hfiles]
            simpa using hrun
          · rw [hnodes]
            dsimp only
            have htk : (filesDelta guess st.callIdx driveId d.files).take (k - st.callIdx) =
                filesDelta guess st.callIdx driveId d.files :=
              List.take_of_length_le (by rw [filesDelta_length]; omega)
            rw [loopDelta_false_cons, List.take_append_eq_append_take, htk, filesDelta_length]
            have harith : k - (st.callIdx + d.files.length) =
                k - st.callIdx - d.files.length := by omega
            rw [harith, List.append_assoc]

end Drive

namespace Drive

/-- C4: if the remote calls numbered below `k` succeed and call `k` fails
(with call `k` reached during the traversal), `upload_folder` returns
failure immediately, and the remote nodes left behind are exactly the
first `k` nodes the fully successful run would have created — nothing
after the failing call is created, and nothing already created is deleted
or modified. -/
theorem upload_folder_abort (guess : List Char → Option (List Char))
    (ok : Nat → Bool) (p : List Char) (t : Dir) (pid : Option Nat)
    (preserve : Bool) (k : Nat)
    (hfirst : ∀ j, j < k → ok j = true) (hk : ok k = false)
    (hlt : k < numCalls preserve t) :
    upload_folder guess ok p (some t) pid preserve =
      (false, ((upload_folder guess allOk p (some t) pid preserve).2).take k) := by
  rw [upload_folder_allOk]
  by_cases h0 : k = 0
  · subst h0
    have hcf : create_folder ok ⟨0, [], 0⟩ (folderNameOf p) pid = (none, ⟨0, [], 0⟩) := by
      simp [create_folder, hk]
    simp [upload_folder, hcf]
  · have hok0 : ok 0 = true := hfirst 0 (by omega)
    have hcf : create_folder ok ⟨0, [], 0⟩ (folderNameOf p) pid =
        (some 0, ⟨1, [⟨0, folderNameOf p, .folder, pid, folderMime⟩], 0⟩) := by
      simp [create_folder, hok0]
    obtain ⟨stf, hrun, hnodes⟩ := walkLoop_abort guess ok 0 preserve k hfirst hk (walk t)
      ⟨1, [⟨0, folderNameOf p, .folder, pid, folderMime⟩], 0⟩
      (by dsimp only; omega)
      (by dsimp only; unfold numCalls at hlt; omega)
    simp only [upload_folder, hcf]
    rw [hrun]
    dsimp only
    rw [hnodes]
    dsimp only
    have htake : (⟨0, folderNameOf p, .folder, pid, folderMime⟩ ::
        loopDelta guess 0 preserve (walk t) 1 0 : List Node).take k =
        ⟨0, folderNameOf p, .folder, pid, folderMime⟩ ::
          (loopDelta guess 0 preserve (walk t) 1 0).take (k - 1) := by
      cases k with
      | zero => omega
      | succ m => simp
    rw [htake]
    simp

/-- Witness for C4 at a concrete input: the tree `r/` with files `f1`,
`f2`; calls 0 (create `r`) and 1 (upload `f1`) succeed, call 2 (upload
`f2`) fails; the run returns failure with exactly the first two nodes of
the fully successful run created. -/
theorem upload_folder_abort_witness :
    upload_folder (fun _ => none) (fun j => decide (j ≠ 2)) "r".toList
        (some (Dir.mk "r".toList ["f1".toList, "f2".toList] [])) none true =
      (false, ((upload_folder (fun _ => none) allOk "r".toList
        (some (Dir.mk "r".toList ["f1".toList, "f2".toList] [])) none true).2).take 2) :=
  upload_folder_abort (fun _ => none) (fun j => decide (j ≠ 2)) "r".toList
    (Dir.mk "r".toList ["f1".toList, "f2".toList] []) none true 2
    (by intro j hj; simp; omega) (by decide) (by decide)

end Drive

namespace Drive

/-- C9 (counterexample): Python's built-in `mimetypes` table maps the
`.bin` extension to `application/octet-stream` itself, so for `x.bin` the
created node's content type is the generic binary type even though
`guess_type` *did* infer a type from the extension — refuting
"octet-stream exactly when no type can be inferred". -/
theorem upload_file_bin_not_only_fallback :
    upload_file binTable allOk ⟨0, [], 0⟩ "x.bin".toList none =
      (true, ⟨1, [⟨0, "x.bin".toList, .file, none, octetStream⟩], 0⟩) ∧
    binTable "x.bin".toList = some octetStream := by
  constructor
  · decide
  · decide

/-- C9 (amended): for every behaviour `guess` of the external
`mimetypes.guess_type` collaborator, a successful `upload_file` creates
exactly one file node whose content type is the inferred type when
`guess_type` yields one and `application/octet-stream` otherwise; hence
the node's type is octet-stream exactly when either no type is inferred
or the inferred type is itself octet-stream (as for `.bin`). -/
theorem upload_file_mime (guess : List Char → Option (List Char))
    (ok : Nat → Bool) (st : St) (path : List Char) (pid : Option Nat)
    (h : ok st.callIdx = true) :
    upload_file guess ok st path pid =
      (true, ⟨st.callIdx + 1,
        st.nodes ++ [⟨st.callIdx, basenameChars path, .file, pid, mimeOf guess path⟩],
        st.current⟩) ∧
    mimeOf guess path = (guess path).getD octetStream ∧
    (mimeOf guess path = octetStream ↔
      (guess path = none ∨ guess path = some octetStream)) := by
  refine ⟨by simp [upload_file, h], ?_, ?_⟩
  · unfold mimeOf
    cases guess path <;> simp
  · unfold mimeOf
    cases hg : guess path <;> simp

/-- Witness for C9 (amended) at a concrete input. -/
theorem upload_file_mime_witness :
    upload_file (fun _ => none) allOk ⟨0, [], 0⟩ "a.txt".toList none =
      (true, ⟨1, [⟨0, basenameChars "a.txt".toList, .file, none,
        mimeOf (fun _ => none) "a.txt".toList⟩], 0⟩) :=
  (upload_file_mime (fun _ => none) allOk ⟨0, [], 0⟩ "a.txt".toList none rfl).1

end Drive

namespace Drive

theorem dropWhile_append_all {α : Type} (p : α → Bool) :
    ∀ a b : List α, (∀ c ∈ a, p c = true) →
    List.dropWhile p (a ++ b) = List.dropWhile p b := by
  intro a
  induction a with
  | nil => intro b _; rfl
  | cons c cs ih =>
    intro b h
    have hc : p c = true := h c (List.mem_cons_self _ _)
    simp only [List.cons_append, List.dropWhile_cons, hc, if_true]
    exact ih b (fun x hx => h x (List.mem_cons_of_mem _ hx))

theorem takeWhile_append_all {α : Type} (p : α → Bool) :
    ∀ a b : List α, (∀ c ∈ a, p c = true) →
    List.takeWhile p (a ++ b) = a ++ List.takeWhile p b := by
  intro a
  induction a with
  | nil => intro b _; rfl
  | cons c cs ih =>
    intro b h
    have hc : p c = true := h c (List.mem_cons_self _ _)
    simp only [List.cons_append, List.takeWhile_cons, hc, if_true]
    rw [ih b (fun x hx => h x (List.mem_cons_of_mem _ hx))]

theorem rstripSlashes_append_slashes (s slashes : List Char)
    (h : ∀ c ∈ slashes, c = '/') :
    rstripSlashes (s ++ slashes) = rstripSlashes s := by
  unfold rstripSlashes
  rw [List.reverse_append, dropWhile_append_all _ slashes.reverse s.reverse (by
    intro c hc
    simp only [List.mem_reverse] at hc
    simp [h c hc])]

theorem rstripSlashes_no_trailing (q nm : List Char) (h1 : nm ≠ [])
    (h2 : '/' ∉ nm) : rstripSlashes (q ++ '/' :: nm) = q ++ '/' :: nm := by
  unfold rstripSlashes
  rw [List.reverse_append, List.reverse_cons]
  cases hrev : nm.reverse with
  | nil => exact absurd (by simpa using hrev) h1
  | cons c cs =>
    have hc : c ∈ nm := by
      rw [← List.mem_reverse, hrev]
      exact List.mem_cons_self _ _
    have hn : ¬(c = '/') := fun hcc => h2 (hcc ▸ hc)
    rw [List.cons_append, List.cons_append]
    simp only [List.dropWhile_cons, decide_eq_true_eq]
    rw [if_neg hn, ← List.cons_append, ← List.cons_append, ← hrev]
    simp

theorem basenameChars_after_slash (q nm : List Char) (h2 : '/' ∉ nm) :
    basenameChars (q ++ '/' :: nm) = nm := by
  unfold basenameChars
  rw [List.reverse_append, List.reverse_cons, List.append_assoc,
    List.singleton_append]
  rw [takeWhile_append_all _ nm.reverse ('/' :: q.reverse) (by
    intro c hc
    simp only [List.mem_reverse] at hc
    simp only [ne_eq, decide_eq_true_eq]
    intro hcc
    exact h2 (hcc ▸ hc))]
  simp [List.takeWhile_cons]

theorem basenameChars_trailing_slash (s : List Char) (slashes : List Char)
    (h3 : ∀ c ∈ slashes, c = '/') (h4 : slashes ≠ []) :
    basenameChars (s ++ slashes) = [] := by
  unfold basenameChars
  rw [List.reverse_append]
  cases hrev : slashes.reverse with
  | nil => exact absurd (by simpa using hrev) h4
  | cons c cs =>
    have hc : c ∈ slashes := by
      rw [← List.mem_reverse, hrev]
      exact List.mem_cons_self _ _
    have hcs : c = '/' := h3 c hc
    subst hcs
    simp [List.takeWhile_cons]

/-- C10: `upload_folder` names the top-level created remote folder with
`os.path.basename(local_path.rstrip('/'))`; for a path with trailing
slashes this is the final non-empty path component — not the empty string
that a plain basename of the slash-terminated path would give — and the
name is invariant under appending trailing slashes. -/
theorem folderNameOf_trailing_slashes (q nm slashes : List Char)
    (h1 : nm ≠ []) (h2 : '/' ∉ nm) (h3 : ∀ c ∈ slashes, c = '/')
    (h4 : slashes ≠ []) :
    folderNameOf ((q ++ '/' :: nm) ++ slashes) = nm ∧
    folderNameOf (q ++ '/' :: nm) = nm ∧
    basenameChars ((q ++ '/' :: nm) ++ slashes) = [] ∧
    (∀ p : List Char, folderNameOf (p ++ ['/']) = folderNameOf p) := by
  refine ⟨?_, ?_, ?_, ?_⟩
  · unfold folderNameOf
    rw [rstripSlashes_append_slashes _ _ h3, rstripSlashes_no_trailing q nm h1 h2,
      basenameChars_after_slash q nm h2]
  · unfold folderNameOf
    rw [rstripSlashes_no_trailing q nm h1 h2, basenameChars_after_slash q nm h2]
  · exact basenameChars_trailing_slash _ _ h3 h4
  · intro p
    unfold folderNameOf
    rw [rstripSlashes_append_slashes p ['/'] (by intro c hc; simpa using hc)]

/-- Witness for C10 at a concrete input: the path `a/b/`. -/
theorem folderNameOf_trailing_slashes_witness :
    folderNameOf (("a".toList ++ '/' :: "b".toList) ++ "/".toList) = "b".toList :=
  (folderNameOf_trailing_slashes "a".toList "b".toList "/".toList
    (by decide) (by decide) (by decide) (by decide)).1

end Drive

namespace DriveDl

theorem isPrefixOf_cons_false (sub : List Char) (c0 c : Char) (l : List Char)
    (hs : sub.head? = some c0) (hne : c ≠ c0) :
    sub.isPrefixOf (c :: l) = false := by
  cases sub with
  | nil => simp at hs
  | cons s ss =>
    have hs' : s = c0 := by simpa using hs
    subst hs'
    have hbeq : (s == c) = false := by
      simp only [beq_eq_false_iff_ne, ne_eq]
      exact fun h => hne h.symm
    simp [List.isPrefixOf, hbeq]

theorem splitFirst_none_of_head_notin (sub : List Char) (c0 : Char)
    (hs : sub.head? = some c0) :
    ∀ s : List Char, c0 ∉ s → splitFirst s sub = none := by
  intro s
  induction s with
  | nil =>
    intro _
    cases sub with
    | nil => simp at hs
    | cons a as => rfl
  | cons c cs ih =>
    intro hnot
    have hne : c ≠ c0 := fun h => hnot (h ▸ List.mem_cons_self c cs)
    rw [splitFirst, isPrefixOf_cons_false sub c0 c cs hs hne]
    simp only [Bool.false_eq_true, if_false]
    rw [ih (fun h => hnot (List.mem_cons_of_mem _ h))]

theorem splitFirst_prepend (sub : List Char) (c0 : Char) (hs : sub.head? = some c0) :
    ∀ (id r : List Char), c0 ∉ id →
    splitFirst (id ++ r) sub =
      (splitFirst r sub).map (fun ab => (id ++ ab.1, ab.2)) := by
  intro id
  induction id with
  | nil =>
    intro r _
    cases h : splitFirst r sub with
    | none => simp [h]
    | some ab => cases ab; simp [h]
  | cons c cs ih =>
    intro r hnot
    have hne : c ≠ c0 := fun h => hnot (h ▸ List.mem_cons_self c cs)
    rw [List.cons_append, splitFirst,
      isPrefixOf_cons_false sub c0 c (cs ++ r) hs hne]
    simp only [Bool.false_eq_true, if_false]
    rw [ih r (fun h => hnot (List.mem_cons_of_mem _ h))]
    cases h : splitFirst r sub with
    | none => simp
    | some ab => cases ab; simp

theorem takeBeforeSub_prepend (sub : List Char) (c0 : Char)
    (hs : sub.head? = some c0) (id w : List Char) (hid : c0 ∉ id) :
    takeBeforeSub (id ++ w) sub = id ++ takeBeforeSub w sub := by
  unfold takeBeforeSub
  rw [splitFirst_prepend sub c0 hs id w hid]
  cases h : splitFirst w sub with
  | none => simp
  | some ab => cases ab; simp

theorem takeBeforeSub_head_shape (c : Char) (r sub : List Char) :
    takeBeforeSub (c :: r) sub = [] ∨ ∃ a, takeBeforeSub (c :: r) sub = c :: a := by
  by_cases hpre : sub.isPrefixOf (c :: r) = true
  · left
    simp [takeBeforeSub, splitFirst, hpre]
  · cases h : splitFirst r sub with
    | none =>
      right
      exact ⟨r, by simp [takeBeforeSub, splitFirst, hpre, h]⟩
    | some ab =>
      right
      obtain ⟨a, b⟩ := ab
      exact ⟨a, by simp [takeBeforeSub, splitFirst, hpre, h]⟩

theorem middle_extract (id w : List Char) (hid : '/' ∉ id)
    (hw : w = [] ∨ ∃ w', w = '/' :: w') :
    takeBeforeSub (id ++ w) ['/'] = id := by
  rcases hw with rfl | ⟨w', rfl⟩
  · rw [List.append_nil]
    unfold takeBeforeSub
    rw [splitFirst_none_of_head_notin ['/'] '/' rfl id hid]
  · rw [takeBeforeSub_prepend ['/'] '/' rfl id ('/' :: w') hid]
    have hz : takeBeforeSub ('/' :: w') ['/'] = [] := by
      simp [takeBeforeSub, splitFirst, List.isPrefixOf]
    rw [hz, List.append_nil]

/-- C7: for a shareable link `pre ++ "/d/" ++ id ++ "/" ++ post` whose
first `"/d/"` occurrence is the marker before `id` (hypothesis `hsplit`)
and whose id segment contains no `/`, the extraction of the downloader's
`main` yields exactly `id`, the same result as passing the bare `id`
directly (a bare id contains no `drive.google.com` and is used unchanged);
and on a URL containing `drive.google.com` but no `"/d/"` marker the
`IndexError` is caught and the process exits with code 1. -/
theorem extract_file_id_link (pre id post bad : List Char)
    (hsplit : splitFirst (pre ++ "/d/".toList ++ id ++ "/".toList ++ post)
      "/d/".toList = some (pre, id ++ "/".toList ++ post))
    (hid : '/' ∉ id)
    (hdom : containsSub (pre ++ "/d/".toList ++ id ++ "/".toList ++ post)
      "drive.google.com".toList = true)
    (hbare : containsSub id "drive.google.com".toList = false)
    (hbad1 : containsSub bad "drive.google.com".toList = true)
    (hbad2 : splitFirst bad "/d/".toList = none) :
    extractFileId (pre ++ "/d/".toList ++ id ++ "/".toList ++ post) = some id ∧
    extractFileId id = some id ∧
    (∀ dl, downloader_main_requests bad dl = 1) := by
  refine ⟨?_, ?_, ?_⟩
  · simp only [extractFileId, hdom, if_true, hsplit]
    congr 1
    have hassoc : id ++ "/".toList ++ post = id ++ ('/' :: post) := by
      rw [List.append_assoc]
      rfl
    rw [hassoc,
      takeBeforeSub_prepend "/d/".toList '/' rfl id ('/' :: post) hid]
    exact middle_extract id _ hid (by
      rcases takeBeforeSub_head_shape '/' post "/d/".toList with h | ⟨a, h⟩
      · exact Or.inl h
      · exact Or.inr ⟨a, h⟩)
  · simp only [extractFileId]
    rw [hbare]
    simp
  · intro dl
    simp only [downloader_main_requests, extractFileId]
    rw [hbad1, hbad2]
    simp

/-- Witness for C7 at a concrete shareable link and a concrete
unextractable URL. -/
theorem extract_file_id_link_witness :
    extractFileId ("https://drive.google.com/file".toList ++ "/d/".toList ++
        "1AbC-xyz".toList ++ "/".toList ++ "view?usp=sharing".toList) =
      some "1AbC-xyz".toList :=
  (extract_file_id_link "https://drive.google.com/file".toList "1AbC-xyz".toList
    "view?usp=sharing".toList "https://drive.google.com/open?id=123".toList
    (by decide) (by decide) (by decide) (by decide) (by decide) (by decide)).1

end DriveDl

namespace Drive

/-- C8 (counterexample): with authentication succeeding and `--list`
requested, a failing remote listing call (the exception is caught inside
`list_drive_folders`, which returns the empty list) still makes `main`
return exit code 0 — refuting "exit code 0 exactly when the requested
top-level operation succeeds / any failing operation yields exit code 1". -/
theorem uploader_main_list_failure_exit_zero :
    uploader_main true true none none (fun _ => none) allOk none none false =
      (0, []) := rfl

/-- C8 (amended): the uploader CLI exits 0 exactly when authentication
succeeds and either the requested operation is `--list` (whose remote
failures are swallowed — the listing prints empty and the exit code is
still 0) or the upload operation succeeds; otherwise — authentication
failure, missing folder argument (help printed), or upload failure — it
exits 1. -/
theorem uploader_main_exit_iff (authOk listFlag : Bool)
    (listRes : Option (List (Nat × List Char))) (folderArg : Option (List Char))
    (guess : List Char → Option (List Char)) (ok : Nat → Bool)
    (fsTree : Option Dir) (pid : Option Nat) (noStructure : Bool) :
    ((uploader_main authOk listFlag listRes folderArg guess ok fsTree pid
        noStructure).1 = 0 ↔
      (authOk = true ∧ (listFlag = true ∨ ∃ p, folderArg = some p ∧
        (upload_folder guess ok p fsTree pid (!noStructure)).1 = true))) ∧
    ((uploader_main authOk listFlag listRes folderArg guess ok fsTree pid
        noStructure).1 = 0 ∨
      (uploader_main authOk listFlag listRes folderArg guess ok fsTree pid
        noStructure).1 = 1) := by
  cases authOk
  · simp [uploader_main]
  · cases listFlag
    · cases folderArg with
      | none => simp [uploader_main]
      | some p =>
        cases h : (upload_folder guess ok p fsTree pid (!noStructure)).1
        · simp [uploader_main, h]
        · simp [uploader_main, h]
    · simp [uploader_main]

end Drive
